import Mathlib

/-!
Shallow embedding of the PII redaction core of the repository
(src/backend/pdf): the data model (DocumentData.py), the PII detector
(PIIDetector.py), the PDF adapters (PDFAdapter.py) and the redaction
planner (PDFRedactor.py).  Strings are modelled as lists of characters,
Python float coordinates as rationals (they are only compared, never
computed with, in the verified code paths), and the numeric rounding
helper round(x, 2) is taken as a parameter wherever the source calls it,
since no verified property depends on its value.
-/

namespace Pii

/-- Python slice s[a:b] for non-negative a, b: elements at indices a..b-1. -/
def pySlice (s : List Char) (a b : Nat) : List Char :=
  (s.take b).drop a

/-- Python `not s.strip()`: true iff every character of s is whitespace
(so stripping leaves the empty string). -/
def isBlank (s : List Char) : Bool :=
  s.all Char.isWhitespace

/-- Enum PIIType of DocumentData.py. -/
inductive PIIType where
  | SSN
  | ROUTING_NUMBER
  | ACCOUNT_NUMBER
  | CREDIT_SCORE_RATING
  | CREDIT_SCORE
  | CREDIT_CARD_NUMBER
  | PHONE_NUMBER
  | EMAIL
  | ADDRESS
  | NAME
  deriving DecidableEq

/-- The string value of each PIIType enum member in DocumentData.py. -/
def PIIType.value : PIIType → String
  | .SSN => "SSN"
  | .ROUTING_NUMBER => "Routing Number"
  | .ACCOUNT_NUMBER => "Account Number"
  | .CREDIT_SCORE_RATING => "Credit Score Rating"
  | .CREDIT_SCORE => "Credit Score"
  | .CREDIT_CARD_NUMBER => "Credit Card Number"
  | .PHONE_NUMBER => "Phone Number"
  | .EMAIL => "Email"
  | .ADDRESS => "Address"
  | .NAME => "Name"

/-- PIIMatch as used throughout PIIDetector.py: the matched text, its
half-open span in the document full text, and its type. -/
structure PIIMatch where
  text : List Char
  start_index : Nat
  end_index : Nat
  pii_type : PIIType
  deriving DecidableEq

/-- BoundingBox of DocumentData.py. -/
structure BoundingBox where
  x0 : ℚ
  y0 : ℚ
  x1 : ℚ
  y1 : ℚ
  deriving DecidableEq

/-- TextSegment of DocumentData.py: a half-open index range into the
document full text. -/
structure TextSegment where
  start_index : Nat
  end_index : Nat
  deriving DecidableEq

/-- Token of DocumentData.py.  detected_as holds the string value of the
PIIType the token was detected as (the source stores pii.pii_type.value). -/
structure Token where
  text : List Char
  bbox : BoundingBox
  text_segments : List TextSegment
  detected_as : Option String := none
  deriving DecidableEq

/-- Token.overlaps_with_span of DocumentData.py: the source loops over
text_segments returning True at the first segment with
start_idx < segment.end_index and end_idx > segment.start_index. -/
def Token.overlaps_with_span (t : Token) (start_idx end_idx : Nat) : Bool :=
  t.text_segments.any fun segment =>
    decide (start_idx < segment.end_index) && decide (end_idx > segment.start_index)

/-- PageData of DocumentData.py. -/
structure PageData where
  tokens : List Token
  deriving DecidableEq

/-- DocumentData of DocumentData.py. -/
structure DocumentData where
  pages : List PageData
  full_text : List Char
  deriving DecidableEq

/-- Helper for the while loops of PIIDetector._refine_pii_matches: walk the
remaining characters, incrementing the index while p holds. -/
def advanceWhileAux (p : Char → Bool) : List Char → Nat → Nat
  | [], i => i
  | c :: cs, i => if p c then advanceWhileAux p cs (i + 1) else i

/-- The while-loop pattern of PIIDetector._refine_pii_matches:
while i < len(t) and p(t[i]): i += 1.  Returns the final index. -/
def advanceWhile (t : List Char) (p : Char → Bool) (i : Nat) : Nat :=
  advanceWhileAux p (t.drop i) i

/-- One iteration of PIIDetector._refine_pii_matches.  For CREDIT_SCORE the
source advances match.start_index while match.text[match.start_index] is not
a digit; for CREDIT_SCORE_RATING it adds 14 to match.start_index and then
advances past whitespace of match.text; all other types are untouched.
Note the source indexes match.text (the matched substring) with
match.start_index (an index into the whole document text). -/
def refineMatch (m : PIIMatch) : PIIMatch :=
  if m.pii_type = PIIType.CREDIT_SCORE then
    { m with start_index := advanceWhile m.text (fun c => !c.isDigit) m.start_index }
  else if m.pii_type = PIIType.CREDIT_SCORE_RATING then
    { m with start_index := advanceWhile m.text (fun c => c.isWhitespace) (m.start_index + 14) }
  else m

/-- PIIDetector._refine_pii_matches: refines every match of the list in
place (modelled functionally as a map). -/
def refine_pii_matches (ms : List PIIMatch) : List PIIMatch :=
  ms.map refineMatch

/-- The stable insertion step of Python list.sort(key=lambda x: x.start_index):
an element is placed before the first element with a key not smaller than its
own, so elements with equal keys keep their original relative order. -/
def insertByStart (m : PIIMatch) : List PIIMatch → List PIIMatch
  | [] => [m]
  | y :: ys =>
    if m.start_index ≤ y.start_index then m :: y :: ys else y :: insertByStart m ys

/-- Stable sort by start_index, modelling pii_matches.sort(key=lambda x:
x.start_index) in PIIDetector.extract_pii_matches. -/
def sortByStart : List PIIMatch → List PIIMatch
  | [] => []
  | x :: xs => insertByStart x (sortByStart xs)

/-- PIIDetector.extract_pii_matches, taking as input the raw match list
produced by the combined-regex scan (_extract_direct_piis): the raw matches
are refined and then sorted ascending by start_index with a stable sort. -/
def extract_pii_matches (raw : List PIIMatch) : List PIIMatch :=
  sortByStart (refine_pii_matches raw)

/-- The first match of the list overlapping the token, i.e. where the inner
loop of PIIDetector.get_pii_tokens breaks. -/
def firstOverlap (t : Token) (ms : List PIIMatch) : Option PIIMatch :=
  ms.find? fun pii => t.overlaps_with_span pii.start_index pii.end_index

/-- The body of the token loop of PIIDetector.get_pii_tokens: scan the
matches for the first one overlapping the token; if one is found and the
token's detected_as is still None, set detected_as to that match's type
value and report True (the token is appended to the output). -/
def markToken (t : Token) (ms : List PIIMatch) : Token × Bool :=
  match firstOverlap t ms with
  | some pii =>
      if t.detected_as = none then
        ({ t with detected_as := some pii.pii_type.value }, true)
      else (t, false)
  | none => (t, false)

/-- The per-page token loop of PIIDetector.get_pii_tokens: returns the
mutated token list and the (page_index, token) pairs appended on this page. -/
def runPage (page_index : Nat) (ms : List PIIMatch) :
    List Token → List Token × List (Nat × Token)
  | [] => ([], [])
  | t :: ts =>
    let r := markToken t ms
    let rest := runPage page_index ms ts
    (r.1 :: rest.1, (if r.2 then [(page_index, r.1)] else []) ++ rest.2)

/-- The page loop (enumerate(doc_data.pages)) of PIIDetector.get_pii_tokens,
started at page index pi. -/
def runPages (ms : List PIIMatch) (pi : Nat) :
    List PageData → List PageData × List (Nat × Token)
  | [] => ([], [])
  | p :: ps =>
    let r := runPage pi ms p.tokens
    let rest := runPages ms (pi + 1) ps
    (⟨r.1⟩ :: rest.1, r.2 ++ rest.2)

/-- The overlap-resolution loop of PIIDetector.get_pii_tokens (lines
167-196), taking the already-extracted match list: mutates the document's
tokens (returned as the first component, since the embedding is pure) and
returns the appended list of (page_index, token) pairs. -/
def get_pii_tokens (doc_data : DocumentData) (pii_matches : List PIIMatch) :
    DocumentData × List (Nat × Token) :=
  let r := runPages pii_matches 0 doc_data.pages
  (⟨r.1, doc_data.full_text⟩, r.2)

/-! PDFAdapter.py -/

/-- One entry of pymupdf page.get_text("words"):
[x0, y0, x1, y1, "word", block_no, line_no, word_no]; only the coordinates
and the word are read by the adapter. -/
structure RawWord where
  x0 : ℚ
  y0 : ℚ
  x1 : ℚ
  y1 : ℚ
  word : List Char
  deriving DecidableEq

/-- The token loop of PDFAdapter.pymupdf_to_data for one page: threads the
accumulated document_text and the start pointer, skips blank words, and for
each kept word records the segment [start, start + len), appends the word
and a space to document_text, and continues with start = end + 1. -/
def pymupdfWords (round2 : ℚ → ℚ) :
    List RawWord → List Char → Nat → List Char × List Token
  | [], document_text, _ => (document_text, [])
  | w :: ws, document_text, start =>
    if isBlank w.word then pymupdfWords round2 ws document_text start
    else
      let e := start + w.word.length
      let rest := pymupdfWords round2 ws (document_text ++ w.word ++ [' ']) (e + 1)
      (rest.1,
        ⟨w.word, ⟨round2 w.x0, round2 w.y0, round2 w.x1, round2 w.y1⟩,
          [⟨start, e⟩], none⟩ :: rest.2)

/-- The page loop of PDFAdapter.pymupdf_to_data: document_text accumulates
across pages, while the start and end pointers are re-initialised to 0 at
the top of every page, exactly as in the source. -/
def pymupdfPages (round2 : ℚ → ℚ) :
    List (List RawWord) → List Char → List Char × List PageData
  | [], document_text => (document_text, [])
  | ws :: rest, document_text =>
    let r := pymupdfWords round2 ws document_text 0
    let r' := pymupdfPages round2 rest r.1
    (r'.1, ⟨r.2⟩ :: r'.2)

/-- PDFAdapter.pymupdf_to_data, parameterised by the rounding helper
round(x, 2) applied to bounding-box coordinates. -/
def pymupdf_to_data (round2 : ℚ → ℚ) (pages : List (List RawWord)) : DocumentData :=
  let r := pymupdfPages round2 pages []
  ⟨r.2, r.1⟩

/-- A normalized vertex of a Google DocAI bounding polygon. -/
structure NormVertex where
  x : ℚ
  y : ℚ
  deriving DecidableEq

/-- A Google DocAI bounding polygon; the adapter reads vertices 0 and 2. -/
structure NormPoly where
  v0 : NormVertex
  v1 : NormVertex
  v2 : NormVertex
  v3 : NormVertex
  deriving DecidableEq

/-- PDFAdapter.convert_bounding_poly. -/
def convert_bounding_poly (round2 : ℚ → ℚ) (p : NormPoly) (page_width page_height : ℚ) :
    BoundingBox :=
  ⟨round2 (p.v0.x * page_width), round2 (p.v0.y * page_height),
   round2 (p.v2.x * page_width), round2 (p.v2.y * page_height)⟩

/-- PDFAdapter.extract_text_from_text_anchor, on the list of text segments
of the anchor (Google DocAI segment indices are non-negative, so they are
modelled as Nat).  In-bounds segments contribute document_text[start:end];
out-of-bounds segments take the else branch, contributing the clamped
partial slice document_text[start:min(end, len(document_text))] after
logging a warning — never an error. -/
def extract_text_from_text_anchor (text_segments : List TextSegment)
    (document_text : List Char) : List Char :=
  text_segments.foldl
    (fun extracted_text segment =>
      if segment.start_index < segment.end_index ∧
          segment.end_index ≤ document_text.length then
        extracted_text ++ pySlice document_text segment.start_index segment.end_index
      else
        extracted_text ++
          pySlice document_text segment.start_index
            (min segment.end_index document_text.length))
    []

/-- A raw token of a Google DocAI page: its layout's bounding polygon and
the text segments of its text anchor. -/
structure RawOcrToken where
  poly : NormPoly
  segs : List TextSegment
  deriving DecidableEq

/-- The token loop of PDFAdapter.google_doc_to_data for one page: compute
each token's text from its anchor, skip tokens whose stripped text is
empty, and build the Token from the converted bounding polygon and the
anchor's segments. -/
def googlePageTokens (round2 : ℚ → ℚ) (document_text : List Char)
    (page_width page_height : ℚ) (toks : List RawOcrToken) : List Token :=
  toks.filterMap fun tk =>
    let token_text := extract_text_from_text_anchor tk.segs document_text
    if isBlank token_text then none
    else some ⟨token_text, convert_bounding_poly round2 tk.poly page_width page_height,
      tk.segs, none⟩

/-- The page loop of PDFAdapter.google_doc_to_data: one PageData per OCR
page, and full_text is the service-returned document text. -/
def google_doc_to_data (round2 : ℚ → ℚ) (document_text : List Char)
    (pages : List (ℚ × ℚ × List RawOcrToken)) : DocumentData :=
  ⟨pages.map fun pg => ⟨googlePageTokens round2 document_text pg.1 pg.2.1 pg.2.2⟩,
   document_text⟩

/-! PDFRedactor.py -/

/-- Token of PageData.py, the data model consumed by
PDFRedactor._apply_redactions (text and confidence are carried along but
never read by the planner logic). -/
structure RToken where
  text : List Char
  bbox : BoundingBox
  confidence : Option ℚ := none
  detected_as : Option String := none
  page_index : Nat := 0
  token_index : Nat := 0
  deriving DecidableEq

/-- A page of the host PDF document: only its width and height are read. -/
structure PdfPage where
  width : ℚ
  height : ℚ
  deriving DecidableEq

/-- Append a token to its page's group, creating the group at the end if
the page index is new — the behaviour of the pii_by_page dict in
PDFRedactor._apply_redactions (Python dicts preserve insertion order). -/
def addToGroups : List (Nat × List RToken) → RToken → List (Nat × List RToken)
  | [], t => [(t.page_index, [t])]
  | g :: rest, t =>
    if g.1 = t.page_index then (g.1, g.2 ++ [t]) :: rest
    else g :: addToGroups rest t

/-- The grouping loop of PDFRedactor._apply_redactions: tokens grouped by
page_index, groups in first-occurrence order. -/
def pii_by_page (pii_tokens : List RToken) : List (Nat × List RToken) :=
  pii_tokens.foldl addToGroups []

/-- Lookup of a page's group in the association list (dict access
pii_by_page[page_idx]); a proof-side helper. -/
def findGroup (k : Nat) : List (Nat × List RToken) → Option (List RToken)
  | [] => none
  | g :: rest => if g.1 = k then some g.2 else findGroup k rest

/-- The bounding-box validation of PDFRedactor._apply_redactions:
0 <= x0 < x1 <= page_width and 0 <= y0 < y1 <= page_height. -/
def validBox (b : BoundingBox) (page_width page_height : ℚ) : Bool :=
  decide (0 ≤ b.x0) && decide (b.x0 < b.x1) && decide (b.x1 ≤ page_width) &&
  decide (0 ≤ b.y0) && decide (b.y0 < b.y1) && decide (b.y1 ≤ page_height)

/-- The redaction plan built by PDFRedactor._apply_redactions: for each
page group (skipping page indices out of bounds of the PDF, with a
warning), the boxes of the group's tokens that pass validation are added as
redaction annotations, and page.apply_redactions() commits once per page
group.  Modelled as the list of (page_index, committed boxes) in commit
order. -/
def apply_redactions (pdf_doc : List PdfPage) (pii_tokens : List RToken) :
    List (Nat × List BoundingBox) :=
  (pii_by_page pii_tokens).filterMap fun g =>
    match pdf_doc.get? g.1 with
    | none => none
    | some page =>
        some (g.1, (g.2.filter fun t => validBox t.bbox page.width page.height).map
          fun t => t.bbox)

/-- Whether the last character of a string satisfies p (false for the empty
string). -/
def lastSat (p : Char → Bool) (t : List Char) : Bool :=
  match t.getLast? with
  | some c => p c
  | none => false

/-- The guarantees the combined regex of PIIDetector gives for every raw
match handed to refinement: the matched text is the non-empty slice
[start_index, end_index) of the document, a CREDIT_SCORE match ends in a
digit (pattern credit score:\s*ddd), and a CREDIT_SCORE_RATING match is at
least 15 characters long (credit report: plus a rating word) and does not
end in whitespace (it ends in the rating word). -/
def MatchWf (m : PIIMatch) : Prop :=
  m.end_index = m.start_index + m.text.length ∧
  1 ≤ m.text.length ∧
  (m.pii_type = PIIType.CREDIT_SCORE → lastSat Char.isDigit m.text = true) ∧
  (m.pii_type = PIIType.CREDIT_SCORE_RATING →
    15 ≤ m.text.length ∧ lastSat (fun c => !c.isWhitespace) m.text = true)

instance (m : PIIMatch) : Decidable (MatchWf m) := by
  unfold MatchWf; infer_instance

/-- The CREDIT_SCORE match of concrete scenario 3 of the spec: the full
text contains the phrase at index 10, so the raw match does not start at
index 0. -/
def creditScoreAt10 : PIIMatch :=
  ⟨"Credit Score:  800".data, 10, 28, PIIType.CREDIT_SCORE⟩

/-- A two-page input to the PyMuPDF adapter, word content as in the
repository's own test test_pymupdf_to_data_multiple_pages. -/
def twoPageWords : List (List RawWord) :=
  [[⟨0, 0, 10, 10, "Foo".data⟩, ⟨12, 0, 22, 10, "Bar".data⟩],
   [⟨0, 0, 10, 10, "Baz".data⟩, ⟨12, 0, 22, 10, "Qux".data⟩]]

/-- A unit bounding polygon for example OCR tokens. -/
def unitPoly : NormPoly :=
  ⟨⟨0, 0⟩, ⟨1, 0⟩, ⟨1, 1⟩, ⟨0, 1⟩⟩

/-- A one-page document whose single token is an SSN. -/
def ssnExampleDoc : DocumentData :=
  ⟨[⟨[⟨"123-45-6789".data, ⟨0, 0, 1, 1⟩, [⟨0, 11⟩], none⟩]⟩], "123-45-6789 ".data⟩

/-- The SSN match on ssnExampleDoc's full text. -/
def ssnExampleMatch : PIIMatch :=
  ⟨"123-45-6789".data, 0, 11, PIIType.SSN⟩

/-! Helper lemmas about the refinement while loop. -/

theorem advanceWhileAux_ge (p : Char → Bool) :
    ∀ (l : List Char) (i : Nat), i ≤ advanceWhileAux p l i := by
  intro l
  induction l with
  | nil => intro i; simp [advanceWhileAux]
  | cons c cs ih =>
    intro i
    simp only [advanceWhileAux]
    split
    · exact le_trans (Nat.le_succ i) (ih (i + 1))
    · exact le_refl i

theorem advanceWhileAux_lt (p : Char → Bool) :
    ∀ (l : List Char) (i : Nat), (∃ c ∈ l, p c = false) →
      advanceWhileAux p l i < i + l.length := by
  intro l
  induction l with
  | nil => rintro i ⟨c, hc, -⟩; exact absurd hc (List.not_mem_nil c)
  | cons d ds ih =>
    rintro i ⟨c, hc, hpc⟩
    simp only [advanceWhileAux]
    by_cases hpd : p d = true
    · rw [if_pos hpd]
      rcases List.mem_cons.mp hc with rfl | hc'
      · rw [hpc] at hpd; exact absurd hpd (by simp)
      · have h1 := ih (i + 1) ⟨c, hc', hpc⟩
        exact lt_of_lt_of_le h1 (by simp [List.length_cons]; omega)
    · rw [if_neg hpd]
      simp only [List.length_cons]
      omega

theorem advanceWhile_ge (t : List Char) (p : Char → Bool) (i : Nat) :
    i ≤ advanceWhile t p i :=
  advanceWhileAux_ge p (t.drop i) i

theorem advanceWhile_of_ge (t : List Char) (p : Char → Bool) (i : Nat)
    (h : t.length ≤ i) : advanceWhile t p i = i := by
  unfold advanceWhile
  rw [List.drop_eq_nil_of_le h]
  rfl

theorem getLast?_mem_drop :
    ∀ (l : List Char) (c : Char) (s : Nat), l.getLast? = some c → s < l.length →
      c ∈ l.drop s := by
  intro l
  induction l with
  | nil => intro c s _ hs; simp at hs
  | cons a as ih =>
    intro c s hlast hs
    cases as with
    | nil =>
      cases s with
      | zero =>
        simp only [List.getLast?_singleton, Option.some_inj] at hlast
        simp [hlast]
      | succ s' => simp at hs
    | cons b bs =>
      rw [List.getLast?_cons_cons] at hlast
      cases s with
      | zero =>
        have : c ∈ (b :: bs).drop 0 := ih c 0 hlast (by simp)
        simp only [List.drop_zero] at this ⊢
        exact List.mem_cons_of_mem a this
      | succ s' =>
        have hs' : s' < (b :: bs).length := by
          simpa [Nat.succ_lt_succ_iff] using hs
        simpa using ih c s' hlast hs'

theorem lastSat_exists {p : Char → Bool} {t : List Char} (h : lastSat p t = true) :
    ∃ c, t.getLast? = some c ∧ p c = true := by
  unfold lastSat at h
  rcases hl : t.getLast? with - | c
  · rw [hl] at h; exact absurd h (by simp)
  · rw [hl] at h; exact ⟨c, rfl, h⟩

theorem advanceWhile_lt_of_lastSat {t : List Char} {p : Char → Bool} {i : Nat}
    (hi : i < t.length) (hlast : lastSat (fun c => !p c) t = true) :
    advanceWhile t p i < t.length := by
  obtain ⟨c, hc, hpc⟩ := lastSat_exists hlast
  have hmem : c ∈ t.drop i := getLast?_mem_drop t c i hc hi
  have := advanceWhileAux_lt p (t.drop i) i ⟨c, hmem, by simpa using hpc⟩
  rwa [List.length_drop, Nat.add_sub_cancel' (le_of_lt hi)] at this

/-- C2: the token-segment overlap test of Token.overlaps_with_span returns
true on a segment [a0, a1) and a span [b0, b1) iff a0 < b1 and a1 > b0; the
test is symmetric in the two intervals; a segment ending exactly where the
span starts (a1 = b0) does not overlap; and a token overlaps a span iff at
least one of its segments does. -/
theorem claim_C2 (t : Token) (txt : List Char) (bb : BoundingBox) (a0 a1 b0 b1 : Nat) :
    (Token.overlaps_with_span ⟨txt, bb, [⟨a0, a1⟩], none⟩ b0 b1 = true ↔
      a0 < b1 ∧ a1 > b0)
    ∧ Token.overlaps_with_span ⟨txt, bb, [⟨a0, a1⟩], none⟩ b0 b1
        = Token.overlaps_with_span ⟨txt, bb, [⟨b0, b1⟩], none⟩ a0 a1
    ∧ (a1 = b0 → Token.overlaps_with_span ⟨txt, bb, [⟨a0, a1⟩], none⟩ b0 b1 = false)
    ∧ (t.overlaps_with_span b0 b1 = true ↔
        ∃ seg ∈ t.text_segments, seg.start_index < b1 ∧ seg.end_index > b0) := by
  refine ⟨?_, ?_, ?_, ?_⟩
  · simp only [Token.overlaps_with_span, List.any_cons, List.any_nil, Bool.or_false,
      Bool.and_eq_true, decide_eq_true_eq]
    omega
  · simp only [Token.overlaps_with_span, List.any_cons, List.any_nil, Bool.or_false]
    exact Bool.and_comm _ _
  · rintro rfl
    simp [Token.overlaps_with_span]
  · simp only [Token.overlaps_with_span, List.any_eq_true, Bool.and_eq_true,
      decide_eq_true_eq]
    constructor
    · rintro ⟨s, hs, h1, h2⟩; exact ⟨s, hs, h2, h1⟩
    · rintro ⟨s, hs, h1, h2⟩; exact ⟨s, hs, h2, h1⟩

/-- Witness for C2 at the boundary input: a segment [0, 5) against the span
[5, 9) does not overlap. -/
theorem claim_C2_witness :
    Token.overlaps_with_span ⟨['a'], ⟨0, 0, 1, 1⟩, [⟨0, 5⟩], none⟩ 5 9 = false :=
  (claim_C2 ⟨['a'], ⟨0, 0, 1, 1⟩, [⟨0, 5⟩], none⟩ ['a'] ⟨0, 0, 1, 1⟩ 0 5 5 9).2.2.1 rfl

/-- C7: refinement never widens a span: for every match, the refined
start_index is at least the original start_index, and end_index (and the
text and type) are unchanged; matches of types other than CREDIT_SCORE and
CREDIT_SCORE_RATING are left entirely unchanged. -/
theorem claim_C7 (m : PIIMatch) :
    m.start_index ≤ (refineMatch m).start_index
    ∧ (refineMatch m).end_index = m.end_index
    ∧ (refineMatch m).text = m.text
    ∧ (refineMatch m).pii_type = m.pii_type
    ∧ (m.pii_type ≠ PIIType.CREDIT_SCORE → m.pii_type ≠ PIIType.CREDIT_SCORE_RATING →
        refineMatch m = m) := by
  unfold refineMatch
  split_ifs with h1 h2
  · exact ⟨advanceWhile_ge _ _ _, rfl, rfl, rfl, fun hn _ => absurd h1 hn⟩
  · refine ⟨?_, rfl, rfl, rfl, fun _ hn => absurd h2 hn⟩
    exact le_trans (Nat.le_add_right _ 14) (advanceWhile_ge _ _ _)
  · exact ⟨le_refl _, rfl, rfl, rfl, fun _ _ => rfl⟩

/-- Witness for C7: an EMAIL match is left entirely unchanged by
refinement. -/
theorem claim_C7_witness :
    refineMatch ⟨"a@b.co".data, 3, 9, PIIType.EMAIL⟩
      = ⟨"a@b.co".data, 3, 9, PIIType.EMAIL⟩ :=
  (claim_C7 ⟨"a@b.co".data, 3, 9, PIIType.EMAIL⟩).2.2.2.2 (by decide) (by decide)

/-- C4 (code evaluation at the failing input): on the CREDIT_SCORE match
"Credit Score:  800" spanning document indices [10, 28), refinement sets
start_index to 15 — the position of the first digit inside the matched
substring, not in the document — and leaves the match text unchanged.  The
refined span [15, 28) of the document selects "t Score:  800", while the
digits "800" live at [25, 28): the claimed behaviour (refined span =
exactly the digits, text updated to the selected substring) does not hold. -/
theorem claim_C4 :
    (refineMatch creditScoreAt10).start_index = 15
    ∧ (refineMatch creditScoreAt10).end_index = 28
    ∧ (refineMatch creditScoreAt10).text = "Credit Score:  800".data
    ∧ pySlice "xxxxxxxxxxCredit Score:  800".data 15 28 = "t Score:  800".data
    ∧ pySlice "xxxxxxxxxxCredit Score:  800".data 25 28 = "800".data
    ∧ "t Score:  800".data ≠ "800".data := by
  decide

/-- C1 (code evaluation at the failing input): on a two-page document the
PyMuPDF adapter accumulates full_text across pages but restarts the index
pointer at 0 on every page, so the page-2 token "Baz" receives segment
[0, 3), and slicing full_text by that segment yields "Foo", not the token's
own text — the index round-trip fails on every page after the first. -/
theorem claim_C1 :
    (pymupdf_to_data id twoPageWords).full_text = "Foo Bar Baz Qux ".data
    ∧ ((pymupdf_to_data id twoPageWords).pages.map fun p =>
        p.tokens.map fun t => (t.text, t.text_segments))
      = [[("Foo".data, [⟨0, 3⟩]), ("Bar".data, [⟨4, 7⟩])],
         [("Baz".data, [⟨0, 3⟩]), ("Qux".data, [⟨4, 7⟩])]]
    ∧ pySlice "Foo Bar Baz Qux ".data 0 3 = "Foo".data
    ∧ "Foo".data ≠ "Baz".data := by
  decide

/-! Helper lemmas about the overlap resolver. -/

theorem markToken_frame (t : Token) (ms : List PIIMatch) :
    ((markToken t ms).1).text = t.text
    ∧ ((markToken t ms).1).bbox = t.bbox
    ∧ ((markToken t ms).1).text_segments = t.text_segments := by
  unfold markToken
  cases h : firstOverlap t ms with
  | none => exact ⟨rfl, rfl, rfl⟩
  | some pii =>
    simp only
    split_ifs <;> exact ⟨rfl, rfl, rfl⟩

theorem markToken_noOverlap (t : Token) (ms : List PIIMatch)
    (h : firstOverlap t ms = none) : markToken t ms = (t, false) := by
  unfold markToken
  rw [h]

theorem firstOverlap_congr (t t' : Token) (ms : List PIIMatch)
    (h : t'.text_segments = t.text_segments) :
    firstOverlap t' ms = firstOverlap t ms := by
  unfold firstOverlap Token.overlaps_with_span
  rw [h]

theorem markToken_idem (t : Token) (ms : List PIIMatch) :
    markToken (markToken t ms).1 ms = ((markToken t ms).1, false) := by
  have hseg : ((markToken t ms).1).text_segments = t.text_segments :=
    (markToken_frame t ms).2.2
  have hfo : firstOverlap (markToken t ms).1 ms = firstOverlap t ms :=
    firstOverlap_congr t (markToken t ms).1 ms hseg
  cases h : firstOverlap t ms with
  | none =>
    have h1 : markToken t ms = (t, false) := markToken_noOverlap t ms h
    rw [h1]
    exact h1
  | some pii =>
    have hne : ((markToken t ms).1).detected_as ≠ none := by
      unfold markToken
      rw [h]
      simp only
      split_ifs with hd
      · simp
      · simpa using hd
    generalize hg : (markToken t ms).1 = t1 at hfo hne ⊢
    unfold markToken
    rw [hfo, h]
    simp only
    rw [if_neg hne]

theorem runPage_idem (pi : Nat) (ms : List PIIMatch) :
    ∀ ts : List Token, runPage pi ms (runPage pi ms ts).1 = ((runPage pi ms ts).1, []) := by
  intro ts
  induction ts with
  | nil => rfl
  | cons t ts ih =>
    simp only [runPage]
    rw [markToken_idem]
    simp only [runPage] at ih
    rw [ih]
    simp

theorem runPages_idem (ms : List PIIMatch) :
    ∀ (ps : List PageData) (pi : Nat),
      runPages ms pi (runPages ms pi ps).1 = ((runPages ms pi ps).1, []) := by
  intro ps
  induction ps with
  | nil => intro pi; rfl
  | cons p ps ih =>
    intro pi
    simp only [runPages]
    rw [runPage_idem, ih]
    simp

/-- C5 counterexample: on a document with one SSN token and its match, the
first resolver run returns a one-element output list, while a second run on
the document state left by the first returns the empty list — not the same
output list as the claim states. -/
theorem claim_C5_counterexample :
    (get_pii_tokens (get_pii_tokens ssnExampleDoc [ssnExampleMatch]).1
        [ssnExampleMatch]).2
      ≠ (get_pii_tokens ssnExampleDoc [ssnExampleMatch]).2 := by
  decide

/-- C5 (amended): re-running the overlap resolver on the document state
left by a first run never changes or escalates an already-marked token: the
second run leaves the document (hence the marked-token set and every
detected_as value) exactly as the first run left it, and its returned
output list is empty rather than equal to the first run's output list. -/
theorem claim_C5 (doc : DocumentData) (ms : List PIIMatch) :
    (get_pii_tokens (get_pii_tokens doc ms).1 ms).1 = (get_pii_tokens doc ms).1
    ∧ (get_pii_tokens (get_pii_tokens doc ms).1 ms).2 = [] := by
  unfold get_pii_tokens
  simp only
  rw [runPages_idem]
  exact ⟨rfl, rfl⟩

/-- C10: frame condition of the overlap resolver: a run leaves full_text
untouched and maps every page to the page of its marked tokens (so the page
and token structure is preserved); marking a token never changes its text,
bbox or text_segments; and a token that overlaps no match of the list is
returned entirely unchanged (in particular its detected_as is untouched).
The match list is an immutable input of the embedding, and each token's new
value depends only on that list and the token itself. -/
theorem claim_C10 (doc : DocumentData) (ms : List PIIMatch) :
    ((get_pii_tokens doc ms).1).full_text = doc.full_text
    ∧ ((get_pii_tokens doc ms).1).pages
        = doc.pages.map (fun p => ⟨p.tokens.map fun t => (markToken t ms).1⟩)
    ∧ (∀ t : Token, ((markToken t ms).1).text = t.text
        ∧ ((markToken t ms).1).bbox = t.bbox
        ∧ ((markToken t ms).1).text_segments = t.text_segments)
    ∧ (∀ t : Token,
        (∀ pii ∈ ms, t.overlaps_with_span pii.start_index pii.end_index = false) →
        (markToken t ms).1 = t) := by
  have runPage_fst : ∀ (pi : Nat) (ts : List Token),
      (runPage pi ms ts).1 = ts.map fun t => (markToken t ms).1 := by
    intro pi ts
    induction ts with
    | nil => rfl
    | cons t ts ih => simp only [runPage, List.map_cons, ih]
  have runPages_fst : ∀ (ps : List PageData) (pi : Nat),
      (runPages ms pi ps).1 = ps.map fun p => ⟨p.tokens.map fun t => (markToken t ms).1⟩ := by
    intro ps
    induction ps with
    | nil => intro pi; rfl
    | cons p ps ih => intro pi; simp only [runPages, List.map_cons, runPage_fst, ih]
  refine ⟨rfl, ?_, fun t => markToken_frame t ms, fun t h => ?_⟩
  · unfold get_pii_tokens
    simp only
    exact runPages_fst doc.pages 0
  · have hfo : firstOverlap t ms = none := by
      apply List.find?_eq_none.mpr
      intro pii hpii
      simp [h pii hpii]
    rw [markToken_noOverlap t ms hfo]

theorem lastSat_congr (p q : Char → Bool) (h : ∀ c, p c = q c) (t : List Char) :
    lastSat p t = lastSat q t := by
  unfold lastSat
  cases t.getLast? <;> simp [h]

theorem refineMatch_start_ge (m : PIIMatch) :
    m.start_index ≤ (refineMatch m).start_index := by
  unfold refineMatch
  split_ifs with h1 h2
  · exact advanceWhile_ge _ _ _
  · exact le_trans (Nat.le_add_right _ 14) (advanceWhile_ge _ _ _)
  · exact le_refl _

theorem refineMatch_start_lt_end (m : PIIMatch) (hwf : MatchWf m) :
    (refineMatch m).start_index < m.end_index := by
  obtain ⟨hend, hlen, hscore, hrating⟩ := hwf
  unfold refineMatch
  split_ifs with h1 h2
  · show advanceWhile m.text (fun c => !c.isDigit) m.start_index < m.end_index
    by_cases hlt : m.start_index < m.text.length
    · have hd := hscore h1
      have hlast : lastSat (fun c => !(fun c => !c.isDigit) c) m.text = true := by
        rw [lastSat_congr _ Char.isDigit (fun c => Bool.not_not _) m.text]
        exact hd
      have := advanceWhile_lt_of_lastSat hlt hlast
      omega
    · rw [advanceWhile_of_ge _ _ _ (le_of_not_lt hlt)]
      omega
  · show advanceWhile m.text (fun c => c.isWhitespace) (m.start_index + 14) < m.end_index
    obtain ⟨h15, hws⟩ := hrating h2
    by_cases hlt : m.start_index + 14 < m.text.length
    · have hlast : lastSat (fun c => !(fun c => c.isWhitespace) c) m.text = true := hws
      have := advanceWhile_lt_of_lastSat hlt hlast
      omega
    · rw [advanceWhile_of_ge _ _ _ (le_of_not_lt hlt)]
      omega
  · show m.start_index < m.end_index
    omega

theorem sortByStart_eq_self : ∀ l : List PIIMatch,
    l.Pairwise (fun a b => a.start_index < b.start_index) → sortByStart l = l := by
  intro l
  induction l with
  | nil => intro _; rfl
  | cons x xs ih =>
    intro hp
    have hx := (List.pairwise_cons.mp hp).1
    have hxs := (List.pairwise_cons.mp hp).2
    simp only [sortByStart, ih hxs]
    cases xs with
    | nil => rfl
    | cons y ys =>
      have hle : x.start_index ≤ y.start_index :=
        le_of_lt (hx y (List.mem_cons_self y ys))
      simp only [insertByStart, if_pos hle]

/-- C6: the match list returned by extract_pii_matches is sorted ascending
by start_index, and matches with equal start_index are ordered shorter
first.  The hypotheses are the guarantees of the raw combined-regex scan:
each raw match is well-formed for its type (MatchWf) and raw matches are
non-overlapping in ascending position, as re.finditer yields them.  In
fact refinement keeps every match's start strictly below its end and only
moves starts forward, so the refined starts are strictly increasing, the
stable sort is the identity, and equal start_index values never occur in
the output (making the tie-break condition hold vacuously). -/
theorem claim_C6 (raw : List PIIMatch) (hwf : ∀ m ∈ raw, MatchWf m)
    (hord : raw.Pairwise fun a b => a.end_index ≤ b.start_index) :
    (extract_pii_matches raw).Pairwise fun a b =>
      a.start_index ≤ b.start_index ∧
      (a.start_index = b.start_index →
        a.end_index - a.start_index ≤ b.end_index - b.start_index) := by
  have hlt : (refine_pii_matches raw).Pairwise
      (fun a b => a.start_index < b.start_index) := by
    unfold refine_pii_matches
    apply List.pairwise_map.mpr
    refine List.Pairwise.imp_of_mem ?_ hord
    intro a b ha hb hab
    have h1 : (refineMatch a).start_index < a.end_index :=
      refineMatch_start_lt_end a (hwf a ha)
    have h2 : b.start_index ≤ (refineMatch b).start_index :=
      refineMatch_start_ge b
    omega
  unfold extract_pii_matches
  rw [sortByStart_eq_self _ hlt]
  exact hlt.imp fun h => ⟨le_of_lt h, fun he => absurd he (Nat.ne_of_lt h)⟩

/-- Witness for C6: an SSN match followed by a CREDIT_SCORE match. -/
theorem claim_C6_witness :
    (extract_pii_matches [⟨"123-45-6789".data, 0, 11, PIIType.SSN⟩,
        ⟨"credit score: 800".data, 12, 29, PIIType.CREDIT_SCORE⟩]).Pairwise
      (fun a b => a.start_index ≤ b.start_index ∧
        (a.start_index = b.start_index →
          a.end_index - a.start_index ≤ b.end_index - b.start_index)) :=
  claim_C6 [⟨"123-45-6789".data, 0, 11, PIIType.SSN⟩,
    ⟨"credit score: 800".data, 12, 29, PIIType.CREDIT_SCORE⟩]
    (by decide) (by decide)

theorem firstOverlap_min_start (t : Token) :
    ∀ ms : List PIIMatch, ms.Pairwise (fun a b => a.start_index ≤ b.start_index) →
      ∀ pii, firstOverlap t ms = some pii →
        ∀ pii' ∈ ms, t.overlaps_with_span pii'.start_index pii'.end_index = true →
          pii.start_index ≤ pii'.start_index := by
  intro ms
  induction ms with
  | nil =>
    intro _ pii h
    simp [firstOverlap] at h
  | cons m rest ih =>
    intro hp pii hfo pii' hmem hov
    have hfo' : List.find?
        (fun x => t.overlaps_with_span x.start_index x.end_index) (m :: rest)
        = some pii := hfo
    cases hpm : t.overlaps_with_span m.start_index m.end_index with
    | true =>
      have hpm' : (fun x => t.overlaps_with_span x.start_index x.end_index) m
          = true := hpm
      rw [List.find?_cons_of_pos rest hpm'] at hfo'
      obtain rfl : m = pii := by injection hfo'
      rcases List.mem_cons.mp hmem with rfl | hmem'
      · exact le_refl _
      · exact (List.pairwise_cons.mp hp).1 pii' hmem'
    | false =>
      have hpm' : ¬ (fun x => t.overlaps_with_span x.start_index x.end_index) m
          = true := by simp only; rw [hpm]; simp
      rw [List.find?_cons_of_neg rest hpm'] at hfo'
      rcases List.mem_cons.mp hmem with rfl | hmem'
      · rw [hov] at hpm
        exact absurd hpm (by simp)
      · exact ih (List.pairwise_cons.mp hp).2 pii hfo' pii' hmem' hov

theorem runPage_snd_clean (pi : Nat) (ms : List PIIMatch) :
    ∀ ts : List Token, (∀ t ∈ ts, t.detected_as = none) →
      (runPage pi ms ts).2 = ts.filterMap fun t =>
        match firstOverlap t ms with
        | some pii => some (pi, { t with detected_as := some pii.pii_type.value })
        | none => none := by
  intro ts
  induction ts with
  | nil => intro _; rfl
  | cons t ts ih =>
    intro hclean
    have ht : t.detected_as = none := hclean t (List.mem_cons_self t ts)
    have hts := fun t' ht' => hclean t' (List.mem_cons_of_mem t ht')
    simp only [runPage, List.filterMap_cons]
    cases hfo : firstOverlap t ms with
    | some pii =>
      have hmt : markToken t ms
          = ({ t with detected_as := some pii.pii_type.value }, true) := by
        unfold markToken
        rw [hfo]
        simp only
        rw [if_pos ht]
      rw [hmt, ih hts]
      simp
    | none =>
      rw [markToken_noOverlap t ms hfo, ih hts]
      simp

theorem runPages_snd_clean (ms : List PIIMatch) :
    ∀ (ps : List PageData) (pi : Nat),
      (∀ p ∈ ps, ∀ t ∈ p.tokens, t.detected_as = none) →
      (runPages ms pi ps).2 = ((List.enumFrom pi ps).map fun pe =>
        pe.2.tokens.filterMap fun t =>
          match firstOverlap t ms with
          | some pii => some (pe.1, { t with detected_as := some pii.pii_type.value })
          | none => none).flatten := by
  intro ps
  induction ps with
  | nil => intro pi _; rfl
  | cons p ps ih =>
    intro pi hclean
    have hp : ∀ t ∈ p.tokens, t.detected_as = none :=
      hclean p (List.mem_cons_self p ps)
    have hps : ∀ p' ∈ ps, ∀ t ∈ p'.tokens, t.detected_as = none :=
      fun p' hp' => hclean p' (List.mem_cons_of_mem p hp')
    simp only [runPages, List.enumFrom_cons, List.map_cons, List.flatten_cons]
    rw [runPage_snd_clean pi ms p.tokens hp, ih (pi + 1) hps]

/-- C3: first-match-wins marking on a fresh document: with every token's
detected_as initially unset and a start-index-sorted match list, the
resolver's output is exactly the document-order traversal of the tokens in
which each token overlapping some match contributes — exactly once, in
traversal order — the pair of its page index and the token marked with the
type value of the first overlapping match of the list (tokens overlapping
no match contribute nothing), so no token is appended twice or
reclassified; moreover the first overlapping match does overlap the token
and has the lowest start_index among all matches overlapping it. -/
theorem claim_C3 (doc : DocumentData) (ms : List PIIMatch)
    (hclean : ∀ p ∈ doc.pages, ∀ t ∈ p.tokens, t.detected_as = none)
    (hsorted : ms.Pairwise fun a b => a.start_index ≤ b.start_index) :
    (get_pii_tokens doc ms).2
      = (doc.pages.enum.map fun pe =>
          pe.2.tokens.filterMap fun t =>
            match firstOverlap t ms with
            | some pii => some (pe.1, { t with detected_as := some pii.pii_type.value })
            | none => none).flatten
    ∧ ∀ (t : Token) (pii : PIIMatch), firstOverlap t ms = some pii →
        t.overlaps_with_span pii.start_index pii.end_index = true
        ∧ ∀ pii' ∈ ms, t.overlaps_with_span pii'.start_index pii'.end_index = true →
            pii.start_index ≤ pii'.start_index := by
  constructor
  · unfold get_pii_tokens
    simp only
    exact runPages_snd_clean ms doc.pages 0 hclean
  · intro t pii hfo
    have hfo' : List.find?
        (fun x => t.overlaps_with_span x.start_index x.end_index) ms
        = some pii := hfo
    refine ⟨?_, firstOverlap_min_start t ms hsorted pii hfo⟩
    have h2 := List.find?_some hfo'
    simpa using h2

/-- Witness for C3: on the one-token SSN document, the resolver returns the
single page-0 token marked as "SSN". -/
theorem claim_C3_witness :
    (get_pii_tokens ssnExampleDoc [ssnExampleMatch]).2
      = [(0, ⟨"123-45-6789".data, ⟨0, 0, 1, 1⟩, [⟨0, 11⟩], some "SSN"⟩)] :=
  ((claim_C3 ssnExampleDoc [ssnExampleMatch] (by decide) (by decide)).1).trans (by decide)

/-! Helper lemmas for the OCR text-anchor extraction. -/

theorem pySlice_degenerate (l : List Char) (a b : Nat) (h : b ≤ a) :
    pySlice l a b = [] := by
  unfold pySlice
  apply List.drop_eq_nil_of_le
  calc (l.take b).length ≤ b := by simp [List.length_take]
    _ ≤ a := h

theorem extract_text_join (document_text : List Char) (segs : List TextSegment) :
    extract_text_from_text_anchor segs document_text
      = (segs.map fun seg =>
          pySlice document_text seg.start_index
            (min seg.end_index document_text.length)).flatten := by
  have key : ∀ (l : List TextSegment) (acc : List Char),
      l.foldl
        (fun extracted_text segment =>
          if segment.start_index < segment.end_index ∧
              segment.end_index ≤ document_text.length then
            extracted_text ++
              pySlice document_text segment.start_index segment.end_index
          else
            extracted_text ++
              pySlice document_text segment.start_index
                (min segment.end_index document_text.length)) acc
        = acc ++ (l.map fun seg =>
            pySlice document_text seg.start_index
              (min seg.end_index document_text.length)).flatten := by
    intro l
    induction l with
    | nil => intro acc; simp
    | cons sg sgs ih =>
      intro acc
      simp only [List.foldl_cons, List.map_cons, List.flatten, ih]
      by_cases hc : sg.start_index < sg.end_index ∧
          sg.end_index ≤ document_text.length
      · rw [if_pos hc, min_eq_left hc.2]
        simp [List.append_assoc]
      · rw [if_neg hc]
        simp [List.append_assoc]
  simpa using key segs []

/-- C8: out-of-range OCR segment indices never raise and degenerate tokens
are dropped: the text extracted from a text anchor is always the
concatenation, segment by segment, of the clamped slice
document_text[start : min(end, len(document_text))] (for in-bounds segments
this is exactly the requested slice; for out-of-bounds ones the partial,
clamped text is used after logging a warning); and a token whose only
segment is degenerate (start >= end) extracts empty text and is dropped
from its page, the page still being produced with all remaining tokens. -/
theorem claim_C8 (document_text : List Char) :
    (∀ segs : List TextSegment,
      extract_text_from_text_anchor segs document_text
        = (segs.map fun seg =>
            pySlice document_text seg.start_index
              (min seg.end_index document_text.length)).flatten)
    ∧ (∀ (round2 : ℚ → ℚ) (pw ph : ℚ) (pre post : List RawOcrToken)
        (tk : RawOcrToken) (s e : Nat), tk.segs = [⟨s, e⟩] → e ≤ s →
        googlePageTokens round2 document_text pw ph (pre ++ tk :: post)
          = googlePageTokens round2 document_text pw ph (pre ++ post)) := by
  refine ⟨extract_text_join document_text, ?_⟩
  intro round2 pw ph pre post tk s e hsegs hdeg
  have htext : extract_text_from_text_anchor tk.segs document_text = [] := by
    rw [hsegs, extract_text_join]
    simp only [List.map_cons, List.map_nil, List.flatten]
    rw [pySlice_degenerate document_text s (min e document_text.length)
      (le_trans (min_le_left _ _) hdeg)]
    simp
  unfold googlePageTokens
  rw [List.filterMap_append, List.filterMap_append, List.filterMap_cons]
  simp only [htext]
  simp [isBlank]

/-- Witness for C8: a token whose only segment is the degenerate (100, 50)
is dropped, while the two well-formed tokens around it survive. -/
theorem claim_C8_witness :
    googlePageTokens id "Hello world".data 100 100
        ([⟨unitPoly, [⟨0, 5⟩]⟩] ++ ⟨unitPoly, [⟨100, 50⟩]⟩ :: [⟨unitPoly, [⟨6, 11⟩]⟩])
      = googlePageTokens id "Hello world".data 100 100
        ([⟨unitPoly, [⟨0, 5⟩]⟩] ++ [⟨unitPoly, [⟨6, 11⟩]⟩]) :=
  (claim_C8 "Hello world".data).2 id 100 100 [⟨unitPoly, [⟨0, 5⟩]⟩]
    [⟨unitPoly, [⟨6, 11⟩]⟩] ⟨unitPoly, [⟨100, 50⟩]⟩ 100 50 rfl (by decide)

/-! Helper lemmas for the redaction planner's page grouping. -/

theorem addToGroups_fst (gs : List (Nat × List RToken)) (t : RToken) :
    ∀ g ∈ addToGroups gs t, g.1 = t.page_index ∨ g.1 ∈ gs.map Prod.fst := by
  induction gs with
  | nil =>
    intro g hg
    simp only [addToGroups, List.mem_singleton] at hg
    left
    rw [hg]
  | cons g0 rest ih =>
    intro g hg
    simp only [addToGroups] at hg
    split_ifs at hg with h0
    · rcases List.mem_cons.mp hg with rfl | hg'
      · left; exact h0
      · right; exact List.mem_map_of_mem Prod.fst (List.mem_cons_of_mem g0 hg')
    · rcases List.mem_cons.mp hg with rfl | hg'
      · right; exact List.mem_map_of_mem Prod.fst (List.mem_cons_self _ rest)
      · rcases ih g hg' with h | h
        · left; exact h
        · right
          simp only [List.map_cons, List.mem_cons] at h ⊢
          exact Or.inr h

theorem addToGroups_pairwise (gs : List (Nat × List RToken)) (t : RToken)
    (hp : gs.Pairwise fun a b => a.1 ≠ b.1) :
    (addToGroups gs t).Pairwise fun a b => a.1 ≠ b.1 := by
  induction gs with
  | nil => simp [addToGroups]
  | cons g0 rest ih =>
    obtain ⟨h0, hrest⟩ := List.pairwise_cons.mp hp
    simp only [addToGroups]
    split_ifs with h
    · exact List.pairwise_cons.mpr ⟨h0, hrest⟩
    · refine List.pairwise_cons.mpr ⟨?_, ih hrest⟩
      intro b hb
      rcases addToGroups_fst rest t b hb with h1 | h2
      · rw [h1]; exact h
      · obtain ⟨g', hg', he⟩ := List.mem_map.mp h2
        rw [← he]
        exact h0 g' hg'

theorem findGroup_addToGroups (t : RToken) :
    ∀ (gs : List (Nat × List RToken)) (k : Nat),
      findGroup k (addToGroups gs t)
        = if t.page_index = k then
            (match findGroup k gs with
             | some v => some (v ++ [t])
             | none => some [t])
          else findGroup k gs := by
  intro gs
  induction gs with
  | nil =>
    intro k
    by_cases h : t.page_index = k <;> simp [addToGroups, findGroup, h]
  | cons g0 rest ih =>
    intro k
    simp only [addToGroups]
    by_cases h0 : g0.1 = t.page_index
    · rw [if_pos h0]
      by_cases hk : g0.1 = k
      · have hpk : t.page_index = k := h0 ▸ hk
        simp [findGroup, hk, hpk]
      · have hpk : ¬ t.page_index = k := fun he => hk (h0.trans he)
        simp [findGroup, hk, hpk]
    · rw [if_neg h0]
      by_cases hk : g0.1 = k
      · have hpk : ¬ t.page_index = k := fun he => h0 (hk.trans he.symm)
        simp [findGroup, hk, hpk]
      · simp only [findGroup, if_neg hk]
        exact ih k

theorem pii_by_page_findGroup :
    ∀ (rest : List RToken) (gs : List (Nat × List RToken)) (k : Nat),
      findGroup k (rest.foldl addToGroups gs)
        = match findGroup k gs with
          | some v => some (v ++ rest.filter fun t => t.page_index = k)
          | none =>
            if rest.any (fun t => t.page_index = k) then
              some (rest.filter fun t => t.page_index = k)
            else none := by
  intro rest
  induction rest with
  | nil =>
    intro gs k
    simp only [List.foldl_nil]
    cases findGroup k gs <;> simp
  | cons t rest ih =>
    intro gs k
    rw [List.foldl_cons, ih (addToGroups gs t) k, findGroup_addToGroups t gs k]
    by_cases hpk : t.page_index = k
    · rw [if_pos hpk]
      cases hg : findGroup k gs <;> simp [hpk, List.filter_cons, List.any_cons]
    · rw [if_neg hpk]
      cases hg : findGroup k gs <;> simp [hpk, List.filter_cons, List.any_cons]

theorem pii_by_page_spec (toks : List RToken) (k : Nat) :
    findGroup k (pii_by_page toks)
      = if toks.any (fun t => t.page_index = k) then
          some (toks.filter fun t => t.page_index = k)
        else none := by
  have h := pii_by_page_findGroup toks [] k
  simpa [pii_by_page, findGroup] using h

theorem pii_by_page_pairwise (toks : List RToken) :
    (pii_by_page toks).Pairwise fun a b => a.1 ≠ b.1 := by
  have key : ∀ (rest : List RToken) (gs : List (Nat × List RToken)),
      gs.Pairwise (fun a b => a.1 ≠ b.1) →
      (rest.foldl addToGroups gs).Pairwise fun a b => a.1 ≠ b.1 := by
    intro rest
    induction rest with
    | nil => intro gs hp; exact hp
    | cons t rest ih =>
      intro gs hp
      exact ih (addToGroups gs t) (addToGroups_pairwise gs t hp)
  exact key toks [] (by simp)

theorem mem_of_findGroup :
    ∀ (gs : List (Nat × List RToken)) (k : Nat) (v : List RToken),
      findGroup k gs = some v → (k, v) ∈ gs := by
  intro gs
  induction gs with
  | nil => intro k v h; exact absurd h (by simp [findGroup])
  | cons g0 rest ih =>
    intro k v h
    simp only [findGroup] at h
    split_ifs at h with hk
    · obtain rfl : g0.2 = v := by injection h
      rw [← hk]
      exact List.mem_cons_self g0 rest
    · exact List.mem_cons_of_mem g0 (ih k v h)

/-- Witness for C10: a token overlapping no match is returned unchanged. -/
theorem claim_C10_witness :
    (markToken ⟨"ab".data, ⟨0, 0, 1, 1⟩, [⟨0, 2⟩], none⟩
        [⟨"z".data, 5, 6, PIIType.EMAIL⟩]).1
      = ⟨"ab".data, ⟨0, 0, 1, 1⟩, [⟨0, 2⟩], none⟩ :=
  (claim_C10 ⟨[], []⟩ [⟨"z".data, 5, 6, PIIType.EMAIL⟩]).2.2.2
    ⟨"ab".data, ⟨0, 0, 1, 1⟩, [⟨0, 2⟩], none⟩ (by decide)

theorem apply_redactions_pairwise (pdf_doc : List PdfPage) (pii_tokens : List RToken) :
    (apply_redactions pdf_doc pii_tokens).Pairwise fun a b => a.1 ≠ b.1 := by
  unfold apply_redactions
  have key : ∀ gs : List (Nat × List RToken),
      gs.Pairwise (fun a b => a.1 ≠ b.1) →
      (gs.filterMap fun g =>
        match pdf_doc.get? g.1 with
        | none => none
        | some page =>
            some (g.1, (g.2.filter fun t => validBox t.bbox page.width page.height).map
              fun t => t.bbox)).Pairwise fun a b => a.1 ≠ b.1 := by
    intro gs
    induction gs with
    | nil => intro _; simp
    | cons g rest ih =>
      intro hp
      obtain ⟨h0, hrest⟩ := List.pairwise_cons.mp hp
      rw [List.filterMap_cons]
      cases hpg : pdf_doc.get? g.1 with
      | none => exact ih hrest
      | some page =>
        refine List.pairwise_cons.mpr ⟨?_, ih hrest⟩
        intro b hb
        obtain ⟨g', hg', hfg'⟩ := List.mem_filterMap.mp hb
        have hb1 : b.1 = g'.1 := by
          rcases hpg' : pdf_doc.get? g'.1 with - | page'
          · rw [hpg'] at hfg'; exact absurd hfg' (by simp)
          · rw [hpg'] at hfg'
            obtain rfl := (Option.some_inj.mp hfg').symm
            rfl
        rw [hb1]
        exact h0 g' hg'
  exact key (pii_by_page pii_tokens) (pii_by_page_pairwise pii_tokens)

/-- C9: bounding-box validation at redaction time: within a page group of
the redaction plan, a marked token's box is committed iff
0 <= x0 < x1 <= page_width and 0 <= y0 < y1 <= page_height; a failing box is
only excluded — the page's entry still exists and carries every valid box
of that page, so neither the page nor the document is aborted; the plan is
grouped per page with exactly one commit (one entry) per page index. -/
theorem claim_C9 (pdf_doc : List PdfPage) (pii_tokens : List RToken) :
    ((apply_redactions pdf_doc pii_tokens).Pairwise fun a b => a.1 ≠ b.1)
    ∧ (∀ (idx : Nat) (page : PdfPage) (bs : List BoundingBox),
        pdf_doc.get? idx = some page →
        (idx, bs) ∈ apply_redactions pdf_doc pii_tokens →
        bs = ((pii_tokens.filter fun t => t.page_index = idx).filter
            fun t => validBox t.bbox page.width page.height).map fun t => t.bbox)
    ∧ (∀ t ∈ pii_tokens, ∀ page : PdfPage, pdf_doc.get? t.page_index = some page →
        ∃ bs, (t.page_index, bs) ∈ apply_redactions pdf_doc pii_tokens
          ∧ (t.bbox ∈ bs ↔ validBox t.bbox page.width page.height = true)) := by
  refine ⟨apply_redactions_pairwise pdf_doc pii_tokens, ?_, ?_⟩
  · intro idx page bs hget hmem
    unfold apply_redactions at hmem
    obtain ⟨g, hg, hfg⟩ := List.mem_filterMap.mp hmem
    rcases hpg : pdf_doc.get? g.1 with - | page'
    · rw [hpg] at hfg; exact absurd hfg (by simp)
    · rw [hpg] at hfg
      have hpair := Option.some_inj.mp hfg
      have hidx : g.1 = idx := congrArg Prod.fst hpair
      have hbs : (g.2.filter fun t => validBox t.bbox page'.width page'.height).map
          (fun t => t.bbox) = bs := congrArg Prod.snd hpair
      rw [hidx] at hpg
      rw [hget] at hpg
      obtain rfl : page' = page := (Option.some_inj.mp hpg).symm
      have hfind : findGroup g.1 (pii_by_page pii_tokens) = some g.2 := by
        have hmemg : (g.1, g.2) ∈ pii_by_page pii_tokens := by
          simpa using hg
        have key : ∀ gs : List (Nat × List RToken),
            gs.Pairwise (fun a b => a.1 ≠ b.1) → (g.1, g.2) ∈ gs →
            findGroup g.1 gs = some g.2 := by
          intro gs
          induction gs with
          | nil => intro _ h; exact absurd h (by simp)
          | cons g0 rest ih =>
            intro hp hmem0
            obtain ⟨h0, hrest⟩ := List.pairwise_cons.mp hp
            rcases List.mem_cons.mp hmem0 with he | hmem'
            · rw [← he]
              simp [findGroup]
            · have hne : ¬ g0.1 = g.1 := h0 (g.1, g.2) hmem'
              simp only [findGroup, if_neg hne]
              exact ih hrest hmem'
        exact key (pii_by_page pii_tokens) (pii_by_page_pairwise pii_tokens) hmemg
      rw [pii_by_page_spec] at hfind
      have hany : pii_tokens.any (fun t => t.page_index = g.1) = true := by
        by_contra hno
        rw [if_neg (by simpa using hno)] at hfind
        exact absurd hfind (by simp)
      rw [if_pos hany] at hfind
      have hg2 : g.2 = pii_tokens.filter fun t => t.page_index = g.1 :=
        (Option.some_inj.mp hfind).symm
      rw [← hbs, hg2, hidx]
  · intro t ht page hget
    have hany : pii_tokens.any (fun t' => t'.page_index = t.page_index) = true :=
      List.any_eq_true.mpr ⟨t, ht, by simp⟩
    have hfind : findGroup t.page_index (pii_by_page pii_tokens)
        = some (pii_tokens.filter fun t' => t'.page_index = t.page_index) := by
      rw [pii_by_page_spec, if_pos hany]
    have hmemg := mem_of_findGroup (pii_by_page pii_tokens) t.page_index _ hfind
    refine ⟨((pii_tokens.filter fun t' => t'.page_index = t.page_index).filter
        fun t' => validBox t'.bbox page.width page.height).map fun t' => t'.bbox,
      ?_, ?_⟩
    · unfold apply_redactions
      apply List.mem_filterMap.mpr
      refine ⟨(t.page_index, pii_tokens.filter fun t' => t'.page_index = t.page_index),
        hmemg, ?_⟩
      simp only [hget]
    · constructor
      · intro hmb
        obtain ⟨t', ht', hbb⟩ := List.mem_map.mp hmb
        have := List.of_mem_filter ht'
        rw [← hbb]
        simpa using this
      · intro hv
        apply List.mem_map.mpr
        refine ⟨t, ?_, rfl⟩
        apply List.mem_filter.mpr
        refine ⟨List.mem_filter.mpr ⟨ht, by simp⟩, by simpa using hv⟩

/-- Witness for C9: on a 612x792 page, the out-of-bounds box
(5, 5, 700, 20) of a marked token is excluded from the page's committed
plan entry iff it fails validation (x1 = 700 > 612), while the page entry
itself exists. -/
theorem claim_C9_witness :
    ∃ bs, (0, bs) ∈ apply_redactions [⟨612, 792⟩]
        [⟨"ok".data, ⟨5, 5, 100, 20⟩, none, some "SSN", 0, 0⟩,
         ⟨"bad".data, ⟨5, 5, 700, 20⟩, none, some "SSN", 0, 1⟩]
      ∧ ((⟨5, 5, 700, 20⟩ : BoundingBox) ∈ bs ↔
          validBox ⟨5, 5, 700, 20⟩ (612 : ℚ) (792 : ℚ) = true) :=
  (claim_C9 [⟨612, 792⟩]
      [⟨"ok".data, ⟨5, 5, 100, 20⟩, none, some "SSN", 0, 0⟩,
       ⟨"bad".data, ⟨5, 5, 700, 20⟩, none, some "SSN", 0, 1⟩]).2.2
    ⟨"bad".data, ⟨5, 5, 700, 20⟩, none, some "SSN", 0, 1⟩ (by simp) ⟨612, 792⟩ rfl

end Pii
